import Mathlib

/-!
# Verification of the EVE API XML-to-dictionary conversion core

This file gives a shallow embedding, in Lean 4, of the document-to-map
conversion core of `eveapi.py`:

* `_dict_with_path` — builds a singly-nested map from a key path and a value;
* `_dict_update`    — the recursive ("deep") merge of two nested dictionaries;
* `dom_to_dict`     — the generic DOM-to-dictionary converter;
* `_process_eveapi_rowset` — the rowset-to-keyed-map converter.

Python dictionaries whose values are either strings or further dictionaries
are modelled by the mutually recursive types `Value`/`VDict`: a dictionary
is a sequence of key/value entries iterated in insertion order (the model
fixes the iteration order of the source's hash maps to insertion order;
no property below depends on a particular order beyond that choice).
Operations that can raise a Python exception (`KeyError`, `TypeError`,
`AttributeError`, `IndexError`) are modelled in the `Except String` monad,
with the error string naming the exception raised by the source at the
same program point.  All definitions are structurally recursive and
executable by kernel reduction.
-/

namespace EveApi

mutual

/-- A Python value in the conversion core: either a string leaf or a nested
dictionary. -/
inductive Value where
  | str : String → Value
  | dict : VDict → Value

/-- A Python dictionary with string keys and `Value` values, in insertion
order.  (Keys are unique in every dictionary the source constructs, since
entries are only ever added by `d[k] = v` assignment.) -/
inductive VDict where
  | nil : VDict
  | cons : String → Value → VDict → VDict

end

/-- Python `d.get(k)` on a `VDict`: the value at the first entry whose key
is `k`, if any; `none` also models the `KeyError` of a plain `d[k]`. -/
def vget : VDict → String → Option Value
  | .nil, _ => none
  | .cons k0 v rest, k => if k0 == k then some v else vget rest k

/-- Python `d[k] = v` on a `VDict`: replace the value at `k` in place if `k`
is present (keeping its position), otherwise append the entry at the end. -/
def vset : VDict → String → Value → VDict
  | .nil, k, v => .cons k v .nil
  | .cons k0 v0 rest, k, v =>
    if k0 == k then .cons k v rest else .cons k0 v0 (vset rest k v)

/-- The keys of a dictionary, in order. -/
def keys : VDict → List String
  | .nil => []
  | .cons k _ rest => k :: keys rest

/-- Python `len(d)`: the number of entries. -/
def vlen : VDict → Nat
  | .nil => 0
  | .cons _ _ rest => vlen rest + 1

/-- Concatenation of two dictionaries (used to state what a merge of
key-disjoint dictionaries produces). -/
def vappend : VDict → VDict → VDict
  | .nil, d => d
  | .cons k v rest, d => .cons k v (vappend rest d)

mutual

/-- Well-formedness of a value as a Python dict structure: at every level
the keys are pairwise distinct (true of every dict the source builds, since
entries are only added via `d[k] = v`). -/
def wf : Value → Bool
  | .str _ => true
  | .dict d => wfD d

/-- Well-formedness of a dictionary, see `wf`. -/
def wfD : VDict → Bool
  | .nil => true
  | .cons k v rest => !((keys rest).contains k) && wf v && wfD rest

end

/-- Following a `KeyPath` through a `Value`: `getPath v []` is `v` itself,
and each further segment looks the key up in a dictionary layer.  This is
the formalisation of "looking a value up by following the path". -/
def getPath : Value → List String → Option Value
  | v, [] => some v
  | .dict d, k :: rest =>
    match vget d k with
    | some v => getPath v rest
    | none => none
  | .str _, _ :: _ => none

/-! ## `_dict_with_path` (eveapi.py lines 241–263)

```python
def _dict_with_path(path, value):
    root_d = d = dict()
    last_element = path.pop()
    for element in path:
        d[element] = dict()
        d = d[element]
    d[last_element] = value
    return root_d
```

`path.pop()` removes and returns the *last* element of the list and raises
`IndexError` on an empty list; the loop then walks the remaining prefix,
creating one fresh single-entry dictionary per segment. -/

/-- The loop of `_dict_with_path` after the `pop`: given the remaining
prefix, the popped `last_element` and the value, build
`{k1: {k2: ... {last: value}}}`.  Every intermediate dictionary is freshly
allocated and receives exactly one key. -/
def buildNest : List String → String → Value → VDict
  | [], last, v => .cons last v .nil
  | e :: rest, last, v => .cons e (.dict (buildNest rest last v)) .nil

/-- `_dict_with_path`: `none` models the `IndexError` raised by `path.pop()`
on an empty path; otherwise the path splits into its prefix and last
element and the nest is built by the loop. -/
def dict_with_path (path : List String) (value : Value) : Option VDict :=
  match path.getLast? with
  | none => none
  | some last => some (buildNest path.dropLast last value)

/-! ## `_dict_update` (eveapi.py lines 266–295)

```python
def _dict_update(dict1, dict2):
    for k, v in dict2.iteritems():
        if type(v) is dict:
            r = _dict_update(dict1.get(k, {}), v)
            dict1[k] = r
        else:
            dict1[k] = dict2[k]
    return dict1
```

`dict1` is dynamically typed: the recursive call passes `dict1.get(k, {})`,
which may be a string.  The embedding splits the dynamic dispatch on
`dict1`'s runtime type into two functions: `strUpdate` is the loop body
when `dict1` is a string (it never recurses — the first iteration raises:
`dict1.get` raises `AttributeError` when the incoming value is a dict, and
`dict1[k] = v` raises `TypeError` when it is a string), and `dict_update`
is the loop when `dict1` is a dictionary.  The in-place mutation of `dict1`
is modelled by threading the updated dictionary through the loop; the
source returns exactly the (mutated) `dict1` object. -/

/-- `_dict_update(dict1, dict2)` when `dict1` is a string: raises on the
first entry of `dict2`, or returns the string unchanged when `dict2` is
empty. -/
def strUpdate (s : String) : VDict → Except String Value
  | .nil => .ok (.str s)
  | .cons _ (.dict _) _ => .error "AttributeError: str has no attribute get"
  | .cons _ (.str _) _ => .error "TypeError: str does not support item assignment"

/-- `_dict_update(dict1, dict2)` when `dict1` is a dictionary: iterate over
`dict2`'s entries; a dict entry is merged recursively into
`dict1.get(k, {})` (which may itself be a string — `strUpdate`), a string
entry overwrites. -/
def dict_update (dict1 : VDict) (dict2 : VDict) : Except String VDict :=
  match dict2 with
  | .nil => .ok dict1
  | .cons k (.dict v2) rest =>
    let inner : Except String Value :=
      match (vget dict1 k).getD (.dict .nil) with
      | .dict d => Except.map Value.dict (dict_update d v2)
      | .str s => strUpdate s v2
    match inner with
    | .error e => .error e
    | .ok r => dict_update (vset dict1 k r) rest
  | .cons k (.str s) rest => dict_update (vset dict1 k (.str s)) rest

/-! ## The DOM model -/

mutual

/-- A parsed DOM node, as read by the converter: a text node carries its
character data; an element node carries its tag name, its attribute list
(name/value string pairs in document order, names distinct in well-formed
XML) and its ordered child nodes.  The document root is modelled as an
element whose children are the top-level nodes (the converter only ever
reads `childNodes`, `nodeType`, `tagName`, `attributes` and `data`). -/
inductive Node where
  | text : String → Node
  | elem : String → List (String × String) → NodeList → Node

/-- An ordered sequence of DOM nodes (`element.childNodes`). -/
inductive NodeList where
  | nil : NodeList
  | cons : Node → NodeList → NodeList

end

/-- The child list of a node (a text node has none). -/
def childNodes : Node → NodeList
  | .text _ => .nil
  | .elem _ _ cs => cs

/-- Python string→string dict assignment `d[k] = v` (same replace-or-append
semantics as `vset`, specialised to string values). -/
def aset (d : List (String × String)) (k v : String) : List (String × String) :=
  if d.any (fun p => p.1 == k) then
    d.map (fun p => if p.1 == k then (k, v) else p)
  else
    d ++ [(k, v)]

/-- Lookup in a string→string dict (`d[k]`, `none` modelling `KeyError`). -/
def aget (d : List (String × String)) (k : String) : Option String :=
  (d.find? (fun p => p.1 == k)).map (fun p => p.2)

/-- The loop `attributes = dict(); for k, v in child.attributes.items():
attributes[k] = v` — copy a node's attribute map into a fresh dict. -/
def buildAttrs (attrs : List (String × String)) : List (String × String) :=
  attrs.foldl (fun d p => aset d p.1 p.2) []

/-- A string→string dict viewed as a `VDict` (every attribute value stays a
raw string). -/
def strDict : List (String × String) → VDict
  | [] => .nil
  | (k, v) :: rest => .cons k (.str v) (strDict rest)

/-- Python `str.strip()`: remove leading and trailing whitespace.  Modelled
directly over the character list (the whitespace set is the common core
space/tab/CR/LF; the difference from Python's slightly larger set is
irrelevant here). -/
def pyStrip (s : String) : String :=
  String.mk ((s.data.dropWhile Char.isWhitespace).reverse.dropWhile Char.isWhitespace).reverse

/-! ## `_process_eveapi_rowset` (eveapi.py lines 354–373)

```python
def _process_eveapi_rowset(element, path, key):
    result = dict()
    for child in element.childNodes:
        if child.nodeType is child.ELEMENT_NODE:
            attributes = dict()
            for k, v in child.attributes.items():
                attributes[k] = v
            key_value = attributes[key]
            _dict_update(result, _dict_with_path(path + [key_value], attributes))
    return result
```
-/

/-- The loop of `_process_eveapi_rowset`, threading the `result`
accumulator (the source mutates `result` in place via `_dict_update`, whose
return value is that same dictionary).  Non-element children are skipped;
`attributes[key]` raises `KeyError` when a row lacks the key attribute. -/
def rowsetGo : NodeList → List String → String → VDict → Except String VDict
  | .nil, _, _, result => .ok result
  | .cons (.text _) rest, path, key, result => rowsetGo rest path key result
  | .cons (.elem _ attrs _) rest, path, key, result =>
    let attributes := buildAttrs attrs
    match aget attributes key with
    | none => .error "KeyError: row key attribute"
    | some key_value =>
      match dict_with_path (path ++ [key_value]) (.dict (strDict attributes)) with
      | none => .error "IndexError: pop from empty list"
      | some upd =>
        match dict_update result upd with
        | .error e => .error e
        | .ok r => rowsetGo rest path key r

/-- `_process_eveapi_rowset(element, path, key)`. -/
def process_eveapi_rowset (element : Node) (path : List String) (key : String) :
    Except String VDict :=
  rowsetGo (childNodes element) path key .nil

/-! ## `dom_to_dict` (eveapi.py lines 298–351)

```python
def dom_to_dict(element, path=list()):
    result = dict()
    for child in element.childNodes:
        if child.nodeType is child.TEXT_NODE:
            child_data = child.data.strip()
            if len(child_data) > 0:
                _dict_update(result, _dict_with_path(path + [u'text'], child_data))
        elif child.nodeType is child.ELEMENT_NODE:
            attributes = dict()
            for k, v in child.attributes.items():
                attributes[k] = v
            if len(attributes) > 0:
                _dict_update(result, _dict_with_path(path + [u'attributes'], attributes))
            if child.tagName == 'rowset':
                _dict_update(result, _process_eveapi_rowset(child,
                                                            path + [child.attributes['name'].value],
                                                            attributes['key']))
            else:
                _dict_update(result, dom_to_dict(child, path + [child.tagName]))
    return result
```

The recursive call `dom_to_dict(child, ...)` immediately iterates over
`child.childNodes` with a fresh `result`, so the whole function is embedded
as a single recursion `domGo` over the child list (`dom_to_dict` itself is
`domGo` started on `element.childNodes` with an empty accumulator).  The
argument expressions of the rowset call are evaluated left to right:
`child.attributes['name']` first (`KeyError` when absent), then
`attributes['key']`. -/

/-- The loop of `dom_to_dict`, threading the mutated `result`; the
recursive call on a child element's child list is the inlined body of
`dom_to_dict(child, path + [child.tagName])`. -/
def domGo : NodeList → List String → VDict → Except String VDict
  | .nil, _, result => .ok result
  | .cons (.text data) rest, path, result =>
    let child_data := pyStrip data
    if child_data.length > 0 then
      match dict_with_path (path ++ ["text"]) (.str child_data) with
      | none => .error "IndexError: pop from empty list"
      | some upd =>
        match dict_update result upd with
        | .error e => .error e
        | .ok r => domGo rest path r
    else
      domGo rest path result
  | .cons (.elem tagName attrs cs) rest, path, result =>
    let attributes := buildAttrs attrs
    let afterAttrs : Except String VDict :=
      if attributes.length > 0 then
        match dict_with_path (path ++ ["attributes"]) (.dict (strDict attributes)) with
        | none => .error "IndexError: pop from empty list"
        | some upd => dict_update result upd
      else
        .ok result
    match afterAttrs with
    | .error e => .error e
    | .ok result1 =>
      if tagName == "rowset" then
        match aget attributes "name" with
        | none => .error "KeyError: name"
        | some nameVal =>
          match aget attributes "key" with
          | none => .error "KeyError: key"
          | some keyVal =>
            match process_eveapi_rowset (.elem tagName attrs cs) (path ++ [nameVal]) keyVal with
            | .error e => .error e
            | .ok upd =>
              match dict_update result1 upd with
              | .error e => .error e
              | .ok r => domGo rest path r
      else
        match domGo cs (path ++ [tagName]) .nil with
        | .error e => .error e
        | .ok sub =>
          match dict_update result1 sub with
          | .error e => .error e
          | .ok r => domGo rest path r

/-- `dom_to_dict(element, path)`. -/
def dom_to_dict (element : Node) (path : List String) : Except String VDict :=
  domGo (childNodes element) path .nil

/-! ## Infrastructure: induction principles and sizes -/

/-- Structural induction over `VDict` alone (the head values are carried
without an induction hypothesis). -/
theorem vdictInductionOn {P : VDict → Prop}
    (h0 : P .nil) (h1 : ∀ k v rest, P rest → P (.cons k v rest)) (d : VDict) : P d :=
  @VDict.rec (fun _ => True) P (fun _ => trivial) (fun _ _ => trivial)
    h0 (fun k v rest _ hr => h1 k v rest hr) d

mutual

/-- Size of a value (for strong induction). -/
def vsize : Value → Nat
  | .str _ => 1
  | .dict d => dsize d + 1

/-- Size of a dictionary (for strong induction). -/
def dsize : VDict → Nat
  | .nil => 1
  | .cons _ v rest => vsize v + dsize rest + 1

end

/-! ## Basic dictionary lemmas -/

theorem vappend_nil (d : VDict) : vappend d .nil = d := by
  induction d using vdictInductionOn with
  | h0 => rfl
  | h1 k v rest ih => simp [vappend, ih]

theorem vappend_assoc (a b c : VDict) :
    vappend (vappend a b) c = vappend a (vappend b c) := by
  induction a using vdictInductionOn with
  | h0 => rfl
  | h1 k v rest ih => simp [vappend, ih]

theorem keys_vappend (a b : VDict) : keys (vappend a b) = keys a ++ keys b := by
  induction a using vdictInductionOn with
  | h0 => rfl
  | h1 k v rest ih => simp [vappend, keys, ih]

theorem vlen_vappend (a b : VDict) : vlen (vappend a b) = vlen a + vlen b := by
  induction a using vdictInductionOn with
  | h0 => simp [vappend, vlen]
  | h1 k v rest ih => simp [vappend, vlen, ih]; omega

theorem vget_of_not_mem {d : VDict} {k : String} (h : k ∉ keys d) :
    vget d k = none := by
  induction d using vdictInductionOn with
  | h0 => rfl
  | h1 k0 v rest ih =>
    simp [keys] at h
    have hne : ¬ k0 = k := fun he => h.1 he.symm
    simp [vget, hne, ih h.2]

theorem vget_vappend (a b : VDict) (k : String) :
    vget (vappend a b) k = ((vget a k).rec (vget b k) (fun v => some v)) := by
  induction a using vdictInductionOn with
  | h0 => simp [vappend, vget]
  | h1 k0 v rest ih =>
    by_cases h : k0 == k
    · simp [vappend, vget, h]
    · simp [vappend, vget, h, ih]

theorem vset_fresh {d : VDict} {k : String} (v : Value) (h : k ∉ keys d) :
    vset d k v = vappend d (.cons k v .nil) := by
  induction d using vdictInductionOn with
  | h0 => rfl
  | h1 k0 v0 rest ih =>
    simp [keys] at h
    have : (k0 == k) = false := by simp [h.1]; exact fun hk => h.1 hk.symm
    simp [vset, vappend, this, ih h.2]

/-! ## Deep-merge lemmas -/

theorem dict_update_nil_right (d : VDict) : dict_update d .nil = .ok d := rfl

/-- Merging a key-disjoint, well-formed dictionary appends its entries
unchanged (the recursive copies rebuild each incoming sub-dictionary
entry by entry). -/
theorem dict_update_disjoint :
    ∀ n d2 d1, dsize d2 ≤ n → wfD d2 = true →
      (∀ k, k ∈ keys d2 → k ∉ keys d1) →
      dict_update d1 d2 = .ok (vappend d1 d2) := by
  intro n
  induction n with
  | zero =>
    intro d2 d1 hsz _ _
    exfalso
    cases d2 <;> simp [dsize, vsize] at hsz
  | succ n ih =>
    intro d2 d1 hsz hwf hdisj
    match d2 with
    | .nil =>
      simpa [dict_update] using (vappend_nil d1).symm
    | .cons k v rest =>
      simp [wfD, Bool.and_eq_true, wf] at hwf
      obtain ⟨⟨hknotin, hwfv⟩, hwfrest⟩ := hwf
      have hk1 : k ∉ keys d1 := hdisj k (by simp [keys])
      have hfresh := vset_fresh v hk1
      have hrest : ∀ v' : Value,
          dict_update (vset d1 k v') rest
            = .ok (vappend (vset d1 k v') rest) := by
        intro v'
        have hfresh' := vset_fresh v' hk1
        apply ih rest _ ?_ hwfrest
        · intro k' hk'
          rw [hfresh', keys_vappend]
          simp [keys]
          refine ⟨hdisj k' (by simp [keys, hk']), ?_⟩
          intro he
          subst he
          exact hknotin hk'
        · simp [dsize, vsize] at hsz ⊢
          omega
      have hfinish : ∀ v' : Value,
          (Except.ok (vappend (vset d1 k v') rest) : Except String VDict)
            = .ok (vappend d1 (.cons k v' rest)) := by
        intro v'
        rw [vset_fresh v' hk1, vappend_assoc]
        simp [vappend]
      match v, hwfv with
      | .str s, _ =>
        calc dict_update d1 (.cons k (.str s) rest)
            = dict_update (vset d1 k (.str s)) rest := by simp [dict_update]
          _ = .ok (vappend (vset d1 k (.str s)) rest) := hrest _
          _ = .ok (vappend d1 (.cons k (.str s) rest)) := hfinish _
      | .dict v2, hwfv =>
        have hcopy : dict_update .nil v2 = .ok v2 := by
          have hv2 : wfD v2 = true := by simpa [wf] using hwfv
          have := ih v2 VDict.nil ?_ hv2 (by simp [keys])
          · simpa [vappend] using this
          · simp [dsize, vsize] at hsz ⊢
            omega
        have hinner :
            dict_update d1 (.cons k (.dict v2) rest)
              = dict_update (vset d1 k (.dict v2)) rest := by
          simp [dict_update, vget_of_not_mem hk1, Option.getD, hcopy, Except.map]
        calc dict_update d1 (.cons k (.dict v2) rest)
            = dict_update (vset d1 k (.dict v2)) rest := hinner
          _ = .ok (vappend (vset d1 k (.dict v2)) rest) := hrest _
          _ = .ok (vappend d1 (.cons k (.dict v2) rest)) := hfinish _

/-- The nest of dictionaries placing the whole dictionary `m` below the key
path `path` (each level a single-entry dictionary). -/
def nestD : List String → VDict → VDict
  | [], m => m
  | p :: ps, m => .cons p (.dict (nestD ps m)) .nil

theorem buildNest_eq_nestD (init : List String) (last : String) (v : Value) :
    buildNest init last v = nestD init (.cons last v .nil) := by
  induction init with
  | nil => rfl
  | cons e rest ih => simp [buildNest, nestD, ih]

/-- Deep-merging two nests along the same path merges the dictionaries at
the bottom of the nest (and propagates any failure). -/
theorem dict_update_nestD (path : List String) :
    ∀ m u, dict_update (nestD path m) (nestD path u)
      = Except.map (fun d => nestD path d) (dict_update m u) := by
  induction path with
  | nil =>
    intro m u
    simp [nestD]
    cases dict_update m u <;> simp [Except.map]
  | cons p ps ih =>
    intro m u
    simp only [nestD]
    rw [show dict_update (.cons p (.dict (nestD ps m)) .nil)
          (.cons p (.dict (nestD ps u)) .nil)
        = (match (Except.map Value.dict
              (dict_update (nestD ps m) (nestD ps u)) : Except String Value) with
           | .error e => .error e
           | .ok r => dict_update (vset (.cons p (.dict (nestD ps m)) .nil) p r) .nil)
      from by simp [dict_update, vget]]
    rw [ih]
    cases h : dict_update m u with
    | error e => simp [Except.map]
    | ok m' => simp [Except.map, vset, dict_update, nestD]

/-- Iterated Python assignment of string entries (the effect of deep-merging
a flat all-string dictionary, such as a row's attribute map). -/
def vsetAll (d : VDict) : List (String × String) → VDict
  | [] => d
  | (k, v) :: rest => vsetAll (vset d k (.str v)) rest

/-- Deep-merging a flat all-string dictionary never fails and is iterated
assignment: existing keys are overwritten in place, new keys appended. -/
theorem dict_update_strDict (a : List (String × String)) :
    ∀ d1, dict_update d1 (strDict a) = .ok (vsetAll d1 a) := by
  induction a with
  | nil => intro d1; simp [strDict, dict_update, vsetAll]
  | cons p rest ih =>
    intro d1
    obtain ⟨k, v⟩ := p
    simp [strDict, dict_update, vsetAll, ih]

/-! ## Path-builder lemmas -/

theorem getPath_buildNest (init : List String) (last : String) (v : Value) :
    getPath (.dict (buildNest init last v)) (init ++ [last]) = some v := by
  induction init with
  | nil => simp [buildNest, getPath, vget]
  | cons e rest ih => simp [buildNest, getPath, vget, ih]

theorem keys_buildNest (init : List String) (last : String) (v : Value) :
    keys (buildNest init last v) = (init ++ [last]).take 1 := by
  cases init <;> simp [buildNest, keys]

theorem dict_with_path_concat (init : List String) (last : String) (v : Value) :
    dict_with_path (init ++ [last]) v = some (buildNest init last v) := by
  simp [dict_with_path]

/-! ## Lookup/assignment lemmas -/

theorem vget_vset_self (d : VDict) (k : String) (v : Value) :
    vget (vset d k v) k = some v := by
  induction d using vdictInductionOn with
  | h0 => simp [vset, vget]
  | h1 k0 v0 rest ih =>
    by_cases h : k0 == k
    · simp [vset, h, vget]
    · simp [vset, h, vget, ih]

theorem vget_vset_other (d : VDict) {k k' : String} (v : Value) (h : k ≠ k') :
    vget (vset d k v) k' = vget d k' := by
  induction d using vdictInductionOn with
  | h0 => simp [vset, vget, h]
  | h1 k0 v0 rest ih =>
    by_cases h0 : k0 == k
    · have : (k == k') = false := by simpa using h
      simp at h0
      subst h0
      simp [vset, vget, this]
    · simp [vset, h0, vget, ih]

theorem keys_vset (d : VDict) (k : String) (v : Value) :
    keys (vset d k v) = if k ∈ keys d then keys d else keys d ++ [k] := by
  induction d using vdictInductionOn with
  | h0 => simp [vset, keys]
  | h1 k0 v0 rest ih =>
    by_cases h : k0 == k
    · simp at h
      subst h
      simp [vset, keys]
    · simp at h
      have : ¬ k = k0 := fun he => h he.symm
      simp [vset, h, keys, ih, this]
      by_cases hm : k ∈ keys rest <;> simp [hm]

/-! ## Attribute-dictionary lemmas -/

theorem keys_strDict (a : List (String × String)) :
    keys (strDict a) = a.map Prod.fst := by
  induction a with
  | nil => rfl
  | cons p rest ih => obtain ⟨k, v⟩ := p; simp [strDict, keys, ih]

theorem wfD_strDict {a : List (String × String)} (h : (a.map Prod.fst).Nodup) :
    wfD (strDict a) = true := by
  induction a with
  | nil => rfl
  | cons p rest ih =>
    obtain ⟨k, v⟩ := p
    simp at h
    simp [strDict, wfD, wf, keys_strDict, ih h.2]
    exact fun x hx => h.1 x hx

theorem wfD_nestD (path : List String) (m : VDict) (h : wfD m = true) :
    wfD (nestD path m) = true := by
  induction path with
  | nil => simpa [nestD]
  | cons p ps ih => simp [nestD, wfD, wf, keys, ih]

theorem mem_map_fst_iff_any (d : List (String × String)) (k : String) :
    ((d.any fun p => p.1 == k) = true) ↔ k ∈ d.map Prod.fst := by
  simp [List.any_eq_true]

theorem keys_aset (d : List (String × String)) (k v : String) :
    (aset d k v).map Prod.fst
      = if k ∈ d.map Prod.fst then d.map Prod.fst else d.map Prod.fst ++ [k] := by
  by_cases h : k ∈ d.map Prod.fst
  · have hany : (d.any fun p => p.1 == k) = true := (mem_map_fst_iff_any d k).mpr h
    simp only [aset, hany, if_pos, if_true, h, List.map_map]
    apply List.map_congr_left
    intro p hp
    by_cases hpk : p.1 == k
    · simp at hpk
      simp [Function.comp, hpk]
    · simp at hpk
      simp [Function.comp, hpk]
  · have hany : (d.any fun p => p.1 == k) = false := by
      rcases hb : (d.any fun p => p.1 == k) with _ | _
      · rfl
      · exact absurd ((mem_map_fst_iff_any d k).mp hb) h
    simp [aset, hany, h]

theorem nodup_buildAttrs (attrs : List (String × String)) :
    ((buildAttrs attrs).map Prod.fst).Nodup := by
  suffices h : ∀ acc : List (String × String), (acc.map Prod.fst).Nodup →
      ((attrs.foldl (fun d p => aset d p.1 p.2) acc).map Prod.fst).Nodup by
    exact h [] (by simp)
  induction attrs with
  | nil => exact fun acc hacc => hacc
  | cons p rest ih =>
    intro acc hacc
    obtain ⟨k, v⟩ := p
    simp only [List.foldl_cons]
    apply ih
    rw [keys_aset]
    by_cases h : k ∈ acc.map Prod.fst
    · simpa [h] using hacc
    · simp only [h, if_false]
      refine List.Nodup.append hacc (by simp) ?_
      intro x hx hk
      simp at hk
      subst hk
      exact h hx

/-! ## Iterated string-assignment lemmas (row attribute merging) -/

theorem vsetAll_not_mem {a : List (String × String)} {k : String}
    (h : k ∉ a.map Prod.fst) : ∀ d, vget (vsetAll d a) k = vget d k := by
  induction a with
  | nil => intro d; rfl
  | cons p rest ih =>
    intro d
    obtain ⟨k0, v0⟩ := p
    simp at h
    rw [vsetAll, ih (by simpa using h.2), vget_vset_other]
    exact fun he => h.1 he.symm

theorem vsetAll_mem {a : List (String × String)} (h : (a.map Prod.fst).Nodup) :
    ∀ {k v}, (k, v) ∈ a → ∀ d, vget (vsetAll d a) k = some (.str v) := by
  induction a with
  | nil => intro k v hm; cases hm
  | cons p rest ih =>
    intro k v hm d
    obtain ⟨k0, v0⟩ := p
    simp at h
    rcases List.mem_cons.mp hm with he | hm'
    · obtain ⟨he1, he2⟩ := Prod.mk.injEq .. |>.mp (by exact he)
      subst he1
      subst he2
      rw [vsetAll, vsetAll_not_mem (by simpa using fun x hx => h.1 x hx),
        vget_vset_self]
    · exact ih h.2 hm' _

theorem keys_vsetAll (a : List (String × String)) :
    ∀ d, keys (vsetAll d a) = a.foldl (fun ks p => if p.1 ∈ ks then ks else ks ++ [p.1]) (keys d) := by
  induction a with
  | nil => intro d; rfl
  | cons p rest ih =>
    intro d
    obtain ⟨k, v⟩ := p
    simp only [vsetAll, List.foldl_cons, ih, keys_vset]

/-! ## Rowset-conversion lemmas -/

/-- Structural induction over `NodeList` alone (the head nodes are carried
without an induction hypothesis). -/
theorem nodeListInductionOn {P : NodeList → Prop}
    (h0 : P .nil) (h1 : ∀ n rest, P rest → P (.cons n rest)) (l : NodeList) : P l :=
  @NodeList.rec (fun _ => True) P (fun _ => trivial) (fun _ _ _ _ => trivial)
    h0 (fun n rest _ hr => h1 n rest hr) l

/-- The attribute lists of the element children of a node list (the rows a
rowset conversion iterates over), in document order. -/
def rowAttrs : NodeList → List (List (String × String))
  | .nil => []
  | .cons (.text _) rest => rowAttrs rest
  | .cons (.elem _ attrs _) rest => attrs :: rowAttrs rest

/-- The entries a rowset conversion produces from the given row attribute
lists: one entry per row, keyed by the designated key attribute's value,
holding the row's full attribute dictionary (raw strings). -/
def rowEntries (key : String) : List (List (String × String)) → VDict
  | [] => .nil
  | a :: rest =>
    .cons ((aget (buildAttrs a) key).getD "") (.dict (strDict (buildAttrs a)))
      (rowEntries key rest)

/-- The key values of the produced entries. -/
def rowKeyValues (key : String) (l : List (List (String × String))) : List String :=
  l.map (fun a => (aget (buildAttrs a) key).getD "")

theorem keys_rowEntries (key : String) (l : List (List (String × String))) :
    keys (rowEntries key l) = rowKeyValues key l := by
  induction l with
  | nil => rfl
  | cons a rest ih => simp [rowEntries, keys, rowKeyValues, ih]

theorem vlen_rowEntries (key : String) (l : List (List (String × String))) :
    vlen (rowEntries key l) = l.length := by
  induction l with
  | nil => rfl
  | cons a rest ih => simp [rowEntries, vlen, ih]

/-- The rowset loop, started on an accumulator already holding the nest of
previously processed rows: each further row with a fresh key value appends
its entry at the bottom of the nest. -/
theorem rowsetGo_nest :
    ∀ rows : NodeList, ∀ path key m,
      (∀ a ∈ rowAttrs rows, (aget (buildAttrs a) key).isSome = true) →
      ((keys m ++ rowKeyValues key (rowAttrs rows)).Nodup) →
      rowsetGo rows path key (nestD path m)
        = .ok (nestD path (vappend m (rowEntries key (rowAttrs rows)))) := by
  intro rows
  induction rows using nodeListInductionOn with
  | h0 =>
    intro path key m _ _
    simp [rowsetGo, rowAttrs, rowEntries, vappend_nil]
  | h1 n rest ih =>
    intro path key m hsome hnodup
    cases n with
    | text s =>
      rw [show rowsetGo (.cons (.text s) rest) path key (nestD path m)
            = rowsetGo rest path key (nestD path m) from rfl]
      exact ih path key m (by simpa [rowAttrs] using hsome)
        (by simpa [rowAttrs, rowKeyValues] using hnodup)
    | elem t attrs cs =>
      obtain ⟨kv, hkv⟩ :=
        Option.isSome_iff_exists.mp (hsome attrs (by simp [rowAttrs]))
      have hkvg : (aget (buildAttrs attrs) key).getD "" = kv := by simp [hkv]
      have hwfs : wfD (.cons kv (.dict (strDict (buildAttrs attrs))) .nil) = true := by
        simp [wfD, wf, keys, wfD_strDict (nodup_buildAttrs attrs)]
      have hkvm : kv ∉ keys m := by
        have := hnodup
        rw [List.nodup_append] at this
        exact fun hmem => this.2.2 hmem (by simp [rowAttrs, rowKeyValues, hkvg])
      have hsingle :
          dict_update m (.cons kv (.dict (strDict (buildAttrs attrs))) .nil)
            = .ok (vappend m (.cons kv (.dict (strDict (buildAttrs attrs))) .nil)) := by
        apply dict_update_disjoint _ _ _ le_rfl hwfs
        intro k hk
        simp [keys] at hk
        subst hk
        exact hkvm
      have hupd :
          dict_update (nestD path m)
              (buildNest path kv (.dict (strDict (buildAttrs attrs))))
            = .ok (nestD path
                (vappend m (.cons kv (.dict (strDict (buildAttrs attrs))) .nil))) := by
        rw [buildNest_eq_nestD, dict_update_nestD, hsingle]
        simp [Except.map]
      have hrest := ih path key
        (vappend m (.cons kv (.dict (strDict (buildAttrs attrs))) .nil))
        (fun a ha => hsome a (by simp [rowAttrs, ha]))
        (by
          rw [keys_vappend]
          simp only [keys]
          have : keys m ++ ([kv] ++ rowKeyValues key (rowAttrs rest))
              = keys m ++ rowKeyValues key (rowAttrs (.cons (.elem t attrs cs) rest)) := by
            simp [rowAttrs, rowKeyValues, hkvg]
          simp only [List.append_assoc]
          rw [show [kv] ++ rowKeyValues key (rowAttrs rest)
              = kv :: rowKeyValues key (rowAttrs rest) from rfl]
          simpa [rowAttrs, rowKeyValues, hkvg] using hnodup)
      calc rowsetGo (.cons (.elem t attrs cs) rest) path key (nestD path m)
          = rowsetGo rest path key (nestD path
              (vappend m (.cons kv (.dict (strDict (buildAttrs attrs))) .nil))) := by
            simp [rowsetGo, hkv, dict_with_path_concat, hupd]
        _ = .ok (nestD path
              (vappend (vappend m (.cons kv (.dict (strDict (buildAttrs attrs))) .nil))
                (rowEntries key (rowAttrs rest)))) := hrest
        _ = .ok (nestD path
              (vappend m (rowEntries key (rowAttrs (.cons (.elem t attrs cs) rest))))) := by
            rw [vappend_assoc]
            simp [vappend, rowAttrs, rowEntries, hkvg]

/-- The rowset loop from its initial empty accumulator: with every row
carrying the key attribute and all key values distinct, the result is one
nest holding one entry per row (and the empty dictionary when there are no
rows at all). -/
theorem rowsetGo_top :
    ∀ rows : NodeList, ∀ path key,
      (∀ a ∈ rowAttrs rows, (aget (buildAttrs a) key).isSome = true) →
      (rowKeyValues key (rowAttrs rows)).Nodup →
      rowsetGo rows path key .nil
        = .ok (if rowAttrs rows = [] then .nil
               else nestD path (rowEntries key (rowAttrs rows))) := by
  intro rows
  induction rows using nodeListInductionOn with
  | h0 => intro path key _ _; simp [rowsetGo, rowAttrs]
  | h1 n rest ih =>
    intro path key hsome hnodup
    cases n with
    | text s =>
      rw [show rowsetGo (.cons (.text s) rest) path key .nil
            = rowsetGo rest path key .nil from rfl]
      rw [ih path key (by simpa [rowAttrs] using hsome)
        (by simpa [rowAttrs, rowKeyValues] using hnodup)]
      simp [rowAttrs]
    | elem t attrs cs =>
      obtain ⟨kv, hkv⟩ :=
        Option.isSome_iff_exists.mp (hsome attrs (by simp [rowAttrs]))
      have hkvg : (aget (buildAttrs attrs) key).getD "" = kv := by simp [hkv]
      have hwfs : wfD (.cons kv (.dict (strDict (buildAttrs attrs))) .nil) = true := by
        simp [wfD, wf, keys, wfD_strDict (nodup_buildAttrs attrs)]
      have hfirst :
          dict_update .nil (buildNest path kv (.dict (strDict (buildAttrs attrs))))
            = .ok (nestD path (.cons kv (.dict (strDict (buildAttrs attrs))) .nil)) := by
        rw [buildNest_eq_nestD]
        have := dict_update_disjoint (dsize (nestD path (.cons kv (.dict (strDict (buildAttrs attrs))) .nil)))
          (nestD path (.cons kv (.dict (strDict (buildAttrs attrs))) .nil)) .nil
          le_rfl (wfD_nestD _ _ hwfs) (by simp [keys])
        simpa [vappend] using this
      have hrest := rowsetGo_nest rest path key
        (.cons kv (.dict (strDict (buildAttrs attrs))) .nil)
        (fun a ha => hsome a (by simp [rowAttrs, ha]))
        (by simpa [keys, rowAttrs, rowKeyValues, hkvg] using hnodup)
      calc rowsetGo (.cons (.elem t attrs cs) rest) path key .nil
          = rowsetGo rest path key
              (nestD path (.cons kv (.dict (strDict (buildAttrs attrs))) .nil)) := by
            simp [rowsetGo, hkv, dict_with_path_concat, hfirst]
        _ = .ok (nestD path
              (vappend (.cons kv (.dict (strDict (buildAttrs attrs))) .nil)
                (rowEntries key (rowAttrs rest)))) := hrest
        _ = .ok (if rowAttrs (.cons (.elem t attrs cs) rest) = [] then .nil
               else nestD path (rowEntries key (rowAttrs (.cons (.elem t attrs cs) rest)))) := by
            simp [rowAttrs, vappend, rowEntries, hkvg]

theorem vget_some_mem_keys {d : VDict} {k : String} {v : Value}
    (h : vget d k = some v) : k ∈ keys d := by
  induction d using vdictInductionOn with
  | h0 => simp [vget] at h
  | h1 k0 v0 rest ih =>
    by_cases h0 : k0 == k
    · simp at h0
      simp [keys, h0]
    · rw [vget, if_neg h0] at h
      simp [keys, ih h]

theorem getPath_nestD (path : List String) (m : VDict) :
    getPath (.dict (nestD path m)) path = some (.dict m) := by
  induction path with
  | nil => rfl
  | cons p ps ih => simp [nestD, getPath, vget, ih]

/-! # The claims -/

/-- C5: for every non-empty key path `P = [k1, ..., kn]` and value `v`,
`_dict_with_path` returns the map `{k1: {k2: {... {kn: v}}}}`: following `P`
through the result yields exactly `v`, and the result has no top-level key
other than `P[0]`; an empty path is a precondition violation on which the
builder fails (the `pop` raises `IndexError`, modelled by `none`). -/
theorem claim_C5 (path : List String) (v : Value) :
    (path ≠ [] →
      ∃ d, dict_with_path path v = some d ∧
        getPath (.dict d) path = some v ∧
        keys d = path.take 1) ∧
    dict_with_path [] v = none := by
  constructor
  · intro h
    obtain ⟨init, last, he⟩ : ∃ init last, path = init ++ [last] :=
      ⟨path.dropLast, path.getLast h, (List.dropLast_append_getLast h).symm⟩
    subst he
    exact ⟨buildNest init last v, dict_with_path_concat init last v,
      getPath_buildNest init last v, keys_buildNest init last v⟩
  · rfl

/-- Witness for C5 at the concrete path `["one", "two", "three"]`. -/
theorem claim_C5_witness :
    ∃ d, dict_with_path ["one", "two", "three"] (.str "four") = some d ∧
      getPath (.dict d) ["one", "two", "three"] = some (.str "four") ∧
      keys d = ["one", "two", "three"].take 1 :=
  (claim_C5 ["one", "two", "three"] (.str "four")).1 (by decide)

/-- C4: deep merge computes the recursive union.  For two well-formed maps
with disjoint top-level key sets, `_dict_update` succeeds with exactly the
entries of both inputs, unchanged and in order (`vappend`): the result's
size is the sum of the sizes, every entry of either input is still present
with its value, and nothing else is; and when both maps hold a sub-map at a
shared key the sub-maps are merged recursively, not replaced
(`{a: {b: "1"}}` merged with `{a: {c: "2"}}` is `{a: {b: "1", c: "2"}}`). -/
theorem claim_C4 :
    (∀ d1 d2 : VDict, wfD d1 = true → wfD d2 = true →
      (∀ k, k ∈ keys d2 → k ∉ keys d1) →
      dict_update d1 d2 = .ok (vappend d1 d2) ∧
      vlen (vappend d1 d2) = vlen d1 + vlen d2 ∧
      (∀ k v, vget d1 k = some v → vget (vappend d1 d2) k = some v) ∧
      (∀ k v, vget d2 k = some v → vget (vappend d1 d2) k = some v) ∧
      (∀ k v, vget (vappend d1 d2) k = some v →
        vget d1 k = some v ∨ vget d2 k = some v)) ∧
    dict_update (.cons "a" (.dict (.cons "b" (.str "1") .nil)) .nil)
        (.cons "a" (.dict (.cons "c" (.str "2") .nil)) .nil)
      = .ok (.cons "a" (.dict (.cons "b" (.str "1") (.cons "c" (.str "2") .nil))) .nil) := by
  constructor
  · intro d1 d2 _ hwf2 hdisj
    refine ⟨dict_update_disjoint (dsize d2) d2 d1 le_rfl hwf2 hdisj,
      vlen_vappend d1 d2, ?_, ?_, ?_⟩
    · intro k v h
      rw [vget_vappend, h]
    · intro k v h
      have hk1 : k ∉ keys d1 := hdisj k (vget_some_mem_keys h)
      rw [vget_vappend, vget_of_not_mem hk1, h]
    · intro k v h
      rw [vget_vappend] at h
      cases h1 : vget d1 k with
      | some v1 =>
        rw [h1] at h
        simp at h
        subst h
        exact Or.inl rfl
      | none =>
        rw [h1] at h
        simp at h
        exact Or.inr h
  · rfl

/-- Witness for C4 on the disjoint maps `{a: "1"}` and `{b: {c: "2"}}`. -/
theorem claim_C4_witness :
    dict_update (.cons "a" (.str "1") .nil) (.cons "b" (.dict (.cons "c" (.str "2") .nil)) .nil)
        = .ok (vappend (.cons "a" (.str "1") .nil)
            (.cons "b" (.dict (.cons "c" (.str "2") .nil)) .nil)) ∧
      vlen (vappend (.cons "a" (.str "1") .nil)
            (.cons "b" (.dict (.cons "c" (.str "2") .nil)) .nil))
        = vlen (.cons "a" (.str "1") .nil)
          + vlen (.cons "b" (.dict (.cons "c" (.str "2") .nil)) .nil) := by
  have h := (claim_C4.1 (.cons "a" (.str "1") .nil)
    (.cons "b" (.dict (.cons "c" (.str "2") .nil)) .nil)
    (by decide) (by decide) (by decide))
  exact ⟨h.1, h.2.1⟩

/-- C2, counterexample: deep-merging `{a: "x"}` with `{a: {b: "1"}}` does
*not* succeed with the incoming map replacing the string — it raises: the
recursive call `_dict_update("x", {b: "1"})` attempts `"x"["b"] = "1"`,
a `TypeError`. -/
theorem claim_C2_counterexample :
    dict_update (.cons "a" (.str "x") .nil)
        (.cons "a" (.dict (.cons "b" (.str "1") .nil)) .nil)
      = .error "TypeError: str does not support item assignment" ∧
    dict_update (.cons "a" (.str "x") .nil)
        (.cons "a" (.dict (.cons "b" (.str "1") .nil)) .nil)
      ≠ .ok (.cons "a" (.dict (.cons "b" (.str "1") .nil)) .nil) := by
  refine ⟨rfl, ?_⟩
  intro h
  rw [show dict_update (.cons "a" (.str "x") .nil)
        (.cons "a" (.dict (.cons "b" (.str "1") .nil)) .nil)
      = .error "TypeError: str does not support item assignment" from rfl] at h
  exact Except.noConfusion h

/-- C2, amended: when the destination holds a string at `k` and the incoming
map holds a non-empty (sub-)map at `k`, `_dict_update` raises (an
`AttributeError` or `TypeError` from the recursive call on the string)
instead of replacing the string; only an empty incoming sub-map leaves the
string in place and succeeds. -/
theorem claim_C2_amended (d1 : VDict) (k s : String) (v2 rest : VDict)
    (hget : vget d1 k = some (.str s)) :
    (v2 ≠ .nil → ∃ e, dict_update d1 (.cons k (.dict v2) rest) = .error e) ∧
    (v2 = .nil →
      dict_update d1 (.cons k (.dict .nil) rest)
        = dict_update (vset d1 k (.str s)) rest) := by
  constructor
  · intro hne
    rw [show dict_update d1 (.cons k (.dict v2) rest)
        = (match (match (vget d1 k).getD (.dict .nil) with
            | .dict d => Except.map Value.dict (dict_update d v2)
            | .str s => strUpdate s v2 : Except String Value) with
          | .error e => .error e
          | .ok r => dict_update (vset d1 k r) rest) from by rw [dict_update]]
    rw [hget]
    match v2, hne with
    | .cons k' (.str s') r', _ => exact ⟨_, rfl⟩
    | .cons k' (.dict d') r', _ => exact ⟨_, rfl⟩
  · intro he
    rw [show dict_update d1 (.cons k (.dict .nil) rest)
        = (match (match (vget d1 k).getD (.dict .nil) with
            | .dict d => Except.map Value.dict (dict_update d .nil)
            | .str s => strUpdate s .nil : Except String Value) with
          | .error e => .error e
          | .ok r => dict_update (vset d1 k r) rest) from by rw [dict_update]]
    rw [hget]
    rfl

/-- Witness for C2 (amended) at `dst = {a: "x"}`, `src = {a: {b: "1"}}`. -/
theorem claim_C2_amended_witness :
    ∃ e, dict_update (.cons "a" (.str "x") .nil)
        (.cons "a" (.dict (.cons "b" (.str "1") .nil)) .nil) = .error e :=
  (claim_C2_amended (.cons "a" (.str "x") .nil) "a" "x"
    (.cons "b" (.str "1") .nil) .nil rfl).1 (fun h => VDict.noConfusion h)

/-- C3, counterexample: in a rowset whose two rows share the key value
`"1"` (first row `{id: "1", x: "a"}`, second row `{id: "1", y: "b"}`), the
result entry at `"1"` still contains the first row's attribute `x` — the
later row's map did *not* entirely replace the earlier one; the two rows'
attribute maps were deep-merged field by field. -/
theorem claim_C3_counterexample :
    process_eveapi_rowset
        (.elem "rowset" [("name", "rs"), ("key", "id")]
          (.cons (.elem "row" [("id", "1"), ("x", "a")] .nil)
          (.cons (.elem "row" [("id", "1"), ("y", "b")] .nil) .nil)))
        ["rs"] "id"
      = .ok (.cons "rs" (.dict (.cons "1" (.dict
          (.cons "id" (.str "1") (.cons "x" (.str "a") (.cons "y" (.str "b") .nil))))
          .nil)) .nil) ∧
    getPath (.dict (.cons "rs" (.dict (.cons "1" (.dict
          (.cons "id" (.str "1") (.cons "x" (.str "a") (.cons "y" (.str "b") .nil))))
          .nil)) .nil)) ["rs", "1", "x"]
      = some (.str "a") := ⟨rfl, rfl⟩

/-- C3, amended: for two row children sharing the same key-attribute value,
the later row's attribute map is deep-merged into the earlier row's map at
that key (`_dict_update` on the two flat attribute dictionaries): the later
row wins at every attribute name both rows carry, but an attribute present
only in the earlier row survives into the result entry — there is no
whole-value replacement. -/
theorem claim_C3_amended (t t1 t2 : String)
    (rsattrs a1 a2 : List (String × String)) (c1 c2 : NodeList)
    (path : List String) (key kv : String)
    (h1 : aget (buildAttrs a1) key = some kv)
    (h2 : aget (buildAttrs a2) key = some kv) :
    process_eveapi_rowset
        (.elem t rsattrs (.cons (.elem t1 a1 c1) (.cons (.elem t2 a2 c2) .nil)))
        path key
      = .ok (nestD path (.cons kv
          (.dict (vsetAll (strDict (buildAttrs a1)) (buildAttrs a2))) .nil)) ∧
    (∀ k v, (k, v) ∈ buildAttrs a2 →
      vget (vsetAll (strDict (buildAttrs a1)) (buildAttrs a2)) k = some (.str v)) ∧
    (∀ k v, vget (strDict (buildAttrs a1)) k = some v →
      k ∉ (buildAttrs a2).map Prod.fst →
      vget (vsetAll (strDict (buildAttrs a1)) (buildAttrs a2)) k = some v) := by
  have hwfs : wfD (.cons kv (.dict (strDict (buildAttrs a1))) .nil) = true := by
    simp [wfD, wf, keys, wfD_strDict (nodup_buildAttrs a1)]
  have hfirst :
      dict_update .nil (buildNest path kv (.dict (strDict (buildAttrs a1))))
        = .ok (nestD path (.cons kv (.dict (strDict (buildAttrs a1))) .nil)) := by
    rw [buildNest_eq_nestD]
    have := dict_update_disjoint
      (dsize (nestD path (.cons kv (.dict (strDict (buildAttrs a1))) .nil)))
      (nestD path (.cons kv (.dict (strDict (buildAttrs a1))) .nil)) .nil
      le_rfl (wfD_nestD _ _ hwfs) (by simp [keys])
    simpa [vappend] using this
  have hmerge :
      dict_update (.cons kv (.dict (strDict (buildAttrs a1))) .nil)
          (.cons kv (.dict (strDict (buildAttrs a2))) .nil)
        = .ok (.cons kv
            (.dict (vsetAll (strDict (buildAttrs a1)) (buildAttrs a2))) .nil) := by
    rw [show dict_update (.cons kv (.dict (strDict (buildAttrs a1))) .nil)
          (.cons kv (.dict (strDict (buildAttrs a2))) .nil)
        = (match (match (vget (.cons kv (.dict (strDict (buildAttrs a1))) .nil) kv).getD
              (.dict .nil) with
            | .dict d => Except.map Value.dict (dict_update d (strDict (buildAttrs a2)))
            | .str s => strUpdate s (strDict (buildAttrs a2)) : Except String Value) with
          | .error e => .error e
          | .ok r => dict_update
              (vset (.cons kv (.dict (strDict (buildAttrs a1))) .nil) kv r) .nil)
        from by rw [dict_update]]
    simp [vget, dict_update_strDict, Except.map, vset, dict_update]
  have hsecond :
      dict_update (nestD path (.cons kv (.dict (strDict (buildAttrs a1))) .nil))
          (buildNest path kv (.dict (strDict (buildAttrs a2))))
        = .ok (nestD path (.cons kv
            (.dict (vsetAll (strDict (buildAttrs a1)) (buildAttrs a2))) .nil)) := by
    rw [buildNest_eq_nestD, dict_update_nestD, hmerge]
    simp [Except.map]
  refine ⟨?_, ?_, ?_⟩
  · calc process_eveapi_rowset
          (.elem t rsattrs (.cons (.elem t1 a1 c1) (.cons (.elem t2 a2 c2) .nil)))
          path key
        = rowsetGo (.cons (.elem t1 a1 c1) (.cons (.elem t2 a2 c2) .nil)) path key .nil :=
          rfl
      _ = .ok (nestD path (.cons kv
            (.dict (vsetAll (strDict (buildAttrs a1)) (buildAttrs a2))) .nil)) := by
          simp [rowsetGo, h1, h2, dict_with_path_concat, hfirst, hsecond]
  · intro k v hm
    exact vsetAll_mem (nodup_buildAttrs a2) hm _
  · intro k v hv hk
    rw [vsetAll_not_mem hk, hv]

/-- Witness for C3 (amended) at the two concrete rows
`{id: "1", x: "a"}` and `{id: "1", y: "b"}`. -/
theorem claim_C3_amended_witness :
    process_eveapi_rowset
        (.elem "rowset" [("name", "rs"), ("key", "id")]
          (.cons (.elem "row" [("id", "1"), ("x", "a")] .nil)
          (.cons (.elem "row" [("id", "1"), ("y", "b")] .nil) .nil)))
        ["rs"] "id"
      = .ok (nestD ["rs"] (.cons "1"
          (.dict (vsetAll (strDict (buildAttrs [("id", "1"), ("x", "a")]))
            (buildAttrs [("id", "1"), ("y", "b")]))) .nil)) :=
  (claim_C3_amended "rowset" "row" "row" [("name", "rs"), ("key", "id")]
    [("id", "1"), ("x", "a")] [("id", "1"), ("y", "b")] .nil .nil
    ["rs"] "id" "1" rfl rfl).1

/-- C6: for a rowset element whose row children all carry the designated
key attribute with pairwise-distinct values, `_process_eveapi_rowset`
produces (at the target path) exactly one entry per `row` child element,
keyed by the value of that child's key attribute, whose value equals the
full attribute map of that row, attribute names unmodified and values kept
as raw strings (`rowEntries` stores each row as `strDict (buildAttrs a)`,
a dictionary of string leaves). -/
theorem claim_C6 (t : String) (rsattrs : List (String × String))
    (rows : NodeList) (path : List String) (key : String)
    (hkey : ∀ a ∈ rowAttrs rows, (aget (buildAttrs a) key).isSome = true)
    (hdistinct : (rowKeyValues key (rowAttrs rows)).Nodup)
    (hne : rowAttrs rows ≠ []) :
    process_eveapi_rowset (.elem t rsattrs rows) path key
      = .ok (nestD path (rowEntries key (rowAttrs rows))) ∧
    getPath (.dict (nestD path (rowEntries key (rowAttrs rows)))) path
      = some (.dict (rowEntries key (rowAttrs rows))) ∧
    vlen (rowEntries key (rowAttrs rows)) = (rowAttrs rows).length ∧
    keys (rowEntries key (rowAttrs rows)) = rowKeyValues key (rowAttrs rows) := by
  refine ⟨?_, getPath_nestD path _, vlen_rowEntries key _, keys_rowEntries key _⟩
  rw [show process_eveapi_rowset (.elem t rsattrs rows) path key
      = rowsetGo rows path key .nil from rfl]
  rw [rowsetGo_top rows path key hkey hdistinct]
  simp [hne]

/-- Witness for C6 on a rowset with two rows with distinct key values. -/
theorem claim_C6_witness :
    process_eveapi_rowset
        (.elem "rowset" [("name", "characters"), ("key", "characterID")]
          (.cons (.elem "row" [("characterID", "1"), ("name", "fcydo")] .nil)
          (.cons (.elem "row" [("characterID", "2"), ("name", "hcydo")] .nil) .nil)))
        ["result", "characters"] "characterID"
      = .ok (nestD ["result", "characters"]
          (rowEntries "characterID"
            (rowAttrs (.cons (.elem "row" [("characterID", "1"), ("name", "fcydo")] .nil)
              (.cons (.elem "row" [("characterID", "2"), ("name", "hcydo")] .nil) .nil))))) :=
  (claim_C6 "rowset" [("name", "characters"), ("key", "characterID")]
    (.cons (.elem "row" [("characterID", "1"), ("name", "fcydo")] .nil)
      (.cons (.elem "row" [("characterID", "2"), ("name", "hcydo")] .nil) .nil))
    ["result", "characters"] "characterID"
    (by decide) (by decide) (by decide)).1

/-- The parsed document of the `/server/ServerStatus` example
(`<eveapi version="2"><currentTime>2011-08-30 22:36:14</currentTime><result>
<serverOpen>True</serverOpen><onlinePlayers>30356</onlinePlayers></result>
<cachedUntil>2011-08-30 22:37:24</cachedUntil></eveapi>`), with the document
node as the root whose only child is the `eveapi` element. -/
def serverStatusDoc : Node :=
  .elem "#document" []
    (.cons (.elem "eveapi" [("version", "2")]
      (.cons (.elem "currentTime" [] (.cons (.text "2011-08-30 22:36:14") .nil))
      (.cons (.elem "result" []
         (.cons (.elem "serverOpen" [] (.cons (.text "True") .nil))
         (.cons (.elem "onlinePlayers" [] (.cons (.text "30356") .nil)) .nil)))
      (.cons (.elem "cachedUntil" [] (.cons (.text "2011-08-30 22:37:24") .nil)) .nil))))
    .nil)

/-- The dictionary `dom_to_dict` actually produces for `serverStatusDoc`:
the root element's attribute map sits under the *top-level* key
`"attributes"`, as a sibling of the `"eveapi"` entry. -/
def serverStatusResult : VDict :=
  .cons "attributes" (.dict (.cons "version" (.str "2") .nil))
    (.cons "eveapi" (.dict
      (.cons "currentTime" (.dict (.cons "text" (.str "2011-08-30 22:36:14") .nil))
      (.cons "result" (.dict
        (.cons "serverOpen" (.dict (.cons "text" (.str "True") .nil))
        (.cons "onlinePlayers" (.dict (.cons "text" (.str "30356") .nil)) .nil)))
      (.cons "cachedUntil" (.dict (.cons "text" (.str "2011-08-30 22:37:24") .nil)) .nil))))
    .nil)

/-- C1, counterexample: converting the `/server/ServerStatus` example
document from the document root with an empty path does *not* place the
root element's attribute map inside the `"eveapi"` entry: there is no
`eveapi → attributes` path in the result at all, while `{version: "2"}`
sits at the *top-level* key `"attributes"`, a sibling of `"eveapi"` (an
element's attributes are merged at the parent's path, not the child's). -/
theorem claim_C1_counterexample :
    dom_to_dict serverStatusDoc [] = .ok serverStatusResult ∧
    getPath (.dict serverStatusResult) ["eveapi", "attributes"] = none ∧
    getPath (.dict serverStatusResult) ["attributes", "version"] = some (.str "2") :=
  ⟨rfl, rfl, rfl⟩

/-- C1, amended: converting the parsed `/server/ServerStatus` document with
`dom_to_dict` (document root, empty path) yields
`{attributes: {version: "2"}, eveapi: {currentTime: {text: ...},
result: {serverOpen: {text: "True"}, onlinePlayers: {text: "30356"}},
cachedUntil: {text: ...}}}` — the root element's attribute map appears
under the top-level key `"attributes"`, as a sibling of the `"eveapi"`
entry, matching the module documentation of the source. -/
theorem claim_C1_amended :
    dom_to_dict serverStatusDoc [] = .ok serverStatusResult := rfl

/-- C9: conversion is deterministic — `dom_to_dict` is a pure function of
the input document tree and path (the model threads no state whatsoever),
so converting equal trees at equal paths twice gives structurally equal
results. -/
theorem claim_C9 (e1 e2 : Node) (p1 p2 : List String)
    (he : e1 = e2) (hp : p1 = p2) :
    dom_to_dict e1 p1 = dom_to_dict e2 p2 := by
  subst he
  subst hp
  rfl

/-- Witness for C9 on the `/server/ServerStatus` document. -/
theorem claim_C9_witness :
    dom_to_dict serverStatusDoc [] = dom_to_dict serverStatusDoc [] :=
  claim_C9 serverStatusDoc serverStatusDoc [] [] rfl rfl

theorem str_length_pos {t : String} (h : t ≠ "") : 0 < t.length := by
  cases t with
  | mk data =>
    cases data with
    | nil => exact absurd rfl h
    | cons c cs => simp [String.length]

/-- C8: for a text child node, `dom_to_dict` merges in an entry at
path-so-far + `["text"]` holding the trimmed content if and only if the
trimmed content is non-empty; a whitespace-only or empty text node is
skipped and leaves the accumulated result (and the rest of the loop)
unchanged.  The merged update is exactly the nest `{path..., text:
trimmed}`, whose lookup at `path ++ ["text"]` is the trimmed content. -/
theorem claim_C8 (s : String) (rest : NodeList) (path : List String) (result : VDict) :
    (pyStrip s = "" →
      domGo (.cons (.text s) rest) path result = domGo rest path result) ∧
    (pyStrip s ≠ "" →
      domGo (.cons (.text s) rest) path result
        = (match dict_update result (buildNest path "text" (.str (pyStrip s))) with
           | .error e => .error e
           | .ok r => domGo rest path r) ∧
      getPath (.dict (buildNest path "text" (.str (pyStrip s)))) (path ++ ["text"])
        = some (.str (pyStrip s))) := by
  constructor
  · intro h
    simp only [domGo]
    rw [h]
    simp
  · intro h
    refine ⟨?_, getPath_buildNest path "text" (.str (pyStrip s))⟩
    simp only [domGo]
    rw [if_pos (str_length_pos h), dict_with_path_concat]

/-- Witness for C8: the whitespace-only text `"  "` is skipped, while the
text `" hi "` merges `{text: "hi"}` (shown here at the empty path with an
empty accumulator and no further children). -/
theorem claim_C8_witness :
    (domGo (.cons (.text "  ") .nil) [] .nil = domGo .nil [] .nil) ∧
    (domGo (.cons (.text " hi ") .nil) [] .nil
      = (match dict_update .nil (buildNest [] "text" (.str (pyStrip " hi "))) with
         | .error e => .error e
         | .ok r => domGo .nil [] r)) :=
  ⟨(claim_C8 "  " .nil [] .nil).1 rfl,
   ((claim_C8 " hi " .nil [] .nil).2 (by decide)).1⟩

/-! ## Malformed rowsets and conversion failure -/

/-- The nodes of a `NodeList`, as a list. -/
def toListN : NodeList → List Node
  | .nil => []
  | .cons n r => n :: toListN r

/-- An element that carries the reserved rowset tag but lacks a `name` or a
`key` attribute. -/
def isMalformedRowset : Node → Prop
  | .text _ => False
  | .elem t attrs _ =>
    t = "rowset" ∧
      (aget (buildAttrs attrs) "name" = none ∨ aget (buildAttrs attrs) "key" = none)

/-- Every rowset element in the tree carries `name` and `key`, and every
row (element child of a rowset) carries the attribute the rowset's `key`
designates: the claim's notion of input on which conversion is supposed to
never fail. -/
def rowsHaveKey : NodeList → String → Bool
  | .nil, _ => true
  | .cons (.text _) rest, kv => rowsHaveKey rest kv
  | .cons (.elem _ attrs _) rest, kv =>
    (aget (buildAttrs attrs) kv).isSome && rowsHaveKey rest kv

mutual

/-- See `rowsHaveKey`: rowset well-formedness of a whole node tree. -/
def rowsetsOK : Node → Bool
  | .text _ => true
  | .elem t attrs cs =>
    (if t == "rowset" then
      (aget (buildAttrs attrs) "name").isSome &&
      (match aget (buildAttrs attrs) "key" with
       | none => false
       | some kv => rowsHaveKey cs kv)
     else true) && rowsetsOKList cs

/-- See `rowsetsOK`. -/
def rowsetsOKList : NodeList → Bool
  | .nil => true
  | .cons n rest => rowsetsOK n && rowsetsOKList rest

end

/-- Processing one child either fails or continues with the rest of the
loop on some accumulator: the conversion loop never skips its own failure. -/
theorem domGo_step (c : Node) (rest : NodeList) (path : List String) (result : VDict) :
    (∃ e, domGo (.cons c rest) path result = .error e) ∨
    (∃ r', domGo (.cons c rest) path result = domGo rest path r') := by
  cases c with
  | text s =>
    simp only [domGo]
    repeat' split
    all_goals first
      | exact Or.inl ⟨_, rfl⟩
      | exact Or.inr ⟨_, rfl⟩
  | elem t attrs cs =>
    simp only [domGo]
    repeat' split
    all_goals first
      | exact Or.inl ⟨_, rfl⟩
      | exact Or.inr ⟨_, rfl⟩

/-- A malformed rowset at the head of the child list makes the loop fail:
either the preceding attribute merge fails, or the lookup of the missing
`name`/`key` attribute does. -/
theorem domGo_malformed_head (t : String) (attrs : List (String × String))
    (cs rest : NodeList) (path : List String) (result : VDict)
    (hbad : isMalformedRowset (.elem t attrs cs)) :
    ∃ e, domGo (.cons (.elem t attrs cs) rest) path result = .error e := by
  obtain ⟨ht, hbad⟩ := hbad
  subst ht
  simp only [domGo]
  split
  · exact ⟨_, rfl⟩
  · split
    · split
      · exact ⟨_, rfl⟩
      · split
        · exact ⟨_, rfl⟩
        · rcases hbad with h | h <;> simp_all
    · simp_all

/-- The conversion loop fails on any child list containing a malformed
rowset among its nodes. -/
theorem domGo_malformed (l : NodeList) :
    ∀ path result, (∃ c ∈ toListN l, isMalformedRowset c) →
      ∃ e, domGo l path result = .error e := by
  induction l using nodeListInductionOn with
  | h0 =>
    intro path result h
    obtain ⟨c, hc, _⟩ := h
    cases hc
  | h1 n rest ih =>
    intro path result h
    obtain ⟨c, hc, hbadc⟩ := h
    rcases List.mem_cons.mp (by simpa [toListN] using hc) with he | hm
    · subst he
      cases c with
      | text s => cases hbadc
      | elem t' attrs' cs' => exact domGo_malformed_head t' attrs' cs' rest path result hbadc
    · rcases domGo_step n rest path result with ⟨e, he⟩ | ⟨r', hr⟩
      · exact ⟨e, he⟩
      · rw [hr]
        exact ih path r' ⟨c, hm, hbadc⟩

/-- C7, amended (first half of the claim, which holds): converting any
element whose child list contains a rowset-tagged element lacking a `name`
or a `key` attribute fails — a lookup failure on the missing attribute (or
an earlier failure of the very same conversion); it never silently returns
a partial result.  (The claim's second half — that conversion never fails
once every rowset carries both attributes and every row the key attribute —
is refuted by `claim_C7_counterexample`; and a malformed rowset nested
*below a row of another rowset* is never examined at all, because row
children are not recursed into.) -/
theorem claim_C7_amended (t : String) (a : List (String × String)) (l : NodeList)
    (path : List String) (hbad : ∃ c ∈ toListN l, isMalformedRowset c) :
    ∃ e, dom_to_dict (.elem t a l) path = .error e :=
  domGo_malformed l path .nil hbad

/-- Witness for C7 (amended): a document whose root holds a rowset element
carrying `name` but no `key`. -/
theorem claim_C7_amended_witness :
    ∃ e, dom_to_dict
        (.elem "#document" [] (.cons (.elem "rowset" [("name", "rs")] .nil) .nil)) []
      = .error e :=
  claim_C7_amended "#document" [] (.cons (.elem "rowset" [("name", "rs")] .nil) .nil) []
    ⟨.elem "rowset" [("name", "rs")] .nil, by simp [toListN],
      ⟨rfl, Or.inr rfl⟩⟩

/-- C7, counterexample (to the claim's "never fails on well-formed input"
half): this document contains no rowset element at all — so every rowset
carries both attributes and every row its key attribute, vacuously
(`rowsetsOK` holds) — yet conversion fails with a `TypeError`: the
element's non-blank text puts the string `"hi"` under the key `"text"`,
and the child element named `text` then deep-merges a dictionary into that
string. -/
theorem claim_C7_counterexample :
    rowsetsOK (.elem "a" []
        (.cons (.text "hi")
          (.cons (.elem "text" [] (.cons (.text "val") .nil)) .nil))) = true ∧
    dom_to_dict (.elem "a" []
        (.cons (.text "hi")
          (.cons (.elem "text" [] (.cons (.text "val") .nil)) .nil))) []
      = .error "TypeError: str does not support item assignment" :=
  ⟨rfl, rfl⟩

/-! ## A heap model of `_dict_update` (mutation, object identity, aliasing)

The functional model above cannot express which *objects* `_dict_update`
mutates or shares.  This section embeds the same source function
(eveapi.py lines 266–295) a second time, over an explicit heap: a Python
dictionary is a heap cell addressed by a `Nat`, values are strings or
references, `d[k] = v` writes the cell in place, and the default argument
`{}` of `dict1.get(k, {})` allocates a fresh empty cell (Python evaluates
the argument before the lookup; when `dict1` is a string, the attribute
lookup `dict1.get` raises before any argument is evaluated).  The iteration
`dict2.iteritems()` is modelled by the snapshot of `dict2`'s cell taken at
call entry; this is observationally the semantics of the source whenever
the call does not mutate `dict2`'s own cell — which is exactly what the
theorems below establish under their preconditions, and which also holds
at the concrete counterexample.  Recursion depth is bounded by a fuel
parameter (Python's own recursion limit); the theorems are conditional on
the call returning a result, so the fuel bound never weakens them. -/

/-- A heap address (the identity of a Python dict object). -/
abbrev Addr := Nat

/-- A runtime value: an immutable string, or a reference to a dict cell. -/
inductive HV where
  | str : String → HV
  | ref : Addr → HV

/-- The contents of one dict object: its entries in insertion order. -/
abbrev Cell := List (String × HV)

/-- The heap: cell contents, indexed by address. -/
abbrev Heap := List Cell

/-- Read a cell (out-of-range reads see an empty dict; the theorems'
closedness preconditions rule them out). -/
def hget (h : Heap) (a : Addr) : Cell := h.getD a []

/-- Overwrite a cell in place. -/
def hset (h : Heap) (a : Addr) (c : Cell) : Heap := h.set a c

/-- `c[k]` in a cell. -/
def cget (c : Cell) (k : String) : Option HV :=
  (c.find? (fun p => p.1 == k)).map (fun p => p.2)

/-- `c[k] = v` in a cell: replace in place or append. -/
def cset (c : Cell) (k : String) (v : HV) : Cell :=
  if c.any (fun p => p.1 == k) then
    c.map (fun p => if p.1 == k then (k, v) else p)
  else
    c ++ [(k, v)]

/-- The loop of `_dict_update` over the snapshot of `dict2`'s entries,
threading the heap.  `dict1` is the (dynamically typed) destination; the
recursive call `r = _dict_update(dict1.get(k, {}), v)` returns its own
first argument `sub`, which `dict1[k] = r` then stores. -/
def hUpdGo : Nat → Heap → HV → List (String × HV) → Except String Heap
  | _, h, _, [] => .ok h
  | 0, _, _, _ :: _ => .error "RecursionError: maximum recursion depth exceeded"
  | fuel + 1, h, dict1, (k, v) :: rest =>
    match v with
    | .ref a2 =>
      match dict1 with
      | .str _ => .error "AttributeError: str has no attribute get"
      | .ref a1 =>
        let fresh : Addr := h.length
        let h1 := h ++ [[]]
        let sub := (cget (hget h1 a1) k).getD (.ref fresh)
        match hUpdGo fuel h1 sub (hget h1 a2) with
        | .error e => .error e
        | .ok h2 => hUpdGo fuel (hset h2 a1 (cset (hget h2 a1) k sub)) dict1 rest
    | .str s =>
      match dict1 with
      | .str _ => .error "TypeError: str does not support item assignment"
      | .ref a1 => hUpdGo fuel (hset h a1 (cset (hget h a1) k (.str s))) dict1 rest

/-- `_dict_update(dict1, dict2)` over the heap: run the loop on the
snapshot of `dict2`'s entries and return (the final heap and) `dict1`
itself — the very object passed in. -/
def hUpd (fuel : Nat) (h : Heap) (dict1 : HV) (a2 : Addr) :
    Except String (Heap × HV) :=
  match hUpdGo fuel h dict1 (hget h a2) with
  | .error e => .error e
  | .ok h' => .ok (h', dict1)

/-- Heap reachability: the dict cells an object can reach through entry
references (its map substructures, itself included). -/
inductive Reach (h : Heap) : Addr → Addr → Prop where
  | refl (a : Addr) : Reach h a a
  | step {a b c : Addr} {k : String} :
      Reach h a b → (k, HV.ref c) ∈ hget h b → Reach h a c

/-- Reachability from a value: a string reaches nothing. -/
def hvReach (h : Heap) : HV → Addr → Prop
  | .str _, _ => False
  | .ref a, c => Reach h a c

/-- A value whose reference (if any) is within the first `n` cells. -/
def hvClosedB (n : Nat) : HV → Bool
  | .str _ => true
  | .ref a => a < n

/-- A cell all of whose references are within the first `n` cells. -/
def cellClosedB (n : Nat) (c : Cell) : Bool :=
  c.all (fun p => hvClosedB n p.2)

/-- A heap with no dangling references. -/
def heapClosedB (h : Heap) : Bool :=
  h.all (cellClosedB h.length)

/-! ### Heap access lemmas -/

theorem hget_oob : ∀ (h : Heap) (a : Addr), h.length ≤ a → hget h a = [] := by
  intro h
  induction h with
  | nil => intro a _; cases a <;> rfl
  | cons hd tl ih =>
    intro a ha
    cases a with
    | zero => simp at ha
    | succ b => exact ih b (by simpa using ha)

theorem hget_append_lt : ∀ (h hs : Heap) (a : Addr), a < h.length →
    hget (h ++ hs) a = hget h a := by
  intro h hs
  induction h with
  | nil => intro a ha; simp at ha
  | cons hd tl ih =>
    intro a ha
    cases a with
    | zero => rfl
    | succ b => exact ih b (by simpa using ha)

theorem hget_append_self (h : Heap) (c : Cell) : hget (h ++ [c]) h.length = c := by
  induction h with
  | nil => rfl
  | cons hd tl ih => simpa [hget] using ih

theorem length_hset (h : Heap) (a : Addr) (c : Cell) : (hset h a c).length = h.length := by
  simp [hset]

theorem hget_hset_self : ∀ (h : Heap) (a : Addr) (c : Cell), a < h.length →
    hget (hset h a c) a = c := by
  intro h
  induction h with
  | nil => intro a c ha; simp at ha
  | cons hd tl ih =>
    intro a c ha
    cases a with
    | zero => rfl
    | succ b => exact ih b c (by simpa using ha)

theorem hget_hset_other : ∀ (h : Heap) (a b : Addr) (c : Cell), a ≠ b →
    hget (hset h a c) b = hget h b := by
  intro h
  induction h with
  | nil => intro a b c _; simp [hset, List.set]
  | cons hd tl ih =>
    intro a b c hne
    cases a with
    | zero =>
      cases b with
      | zero => exact absurd rfl hne
      | succ b' => rfl
    | succ a' =>
      cases b with
      | zero => rfl
      | succ b' => exact ih a' b' c (fun he => hne (congrArg Nat.succ he))

theorem mem_cset {c : Cell} {k : String} {w : HV} {x : String × HV}
    (hx : x ∈ cset c k w) : x ∈ c ∨ x = (k, w) := by
  unfold cset at hx
  by_cases h : c.any (fun p => p.1 == k)
  · rw [if_pos h] at hx
    obtain ⟨p, hp, he⟩ := List.mem_map.mp hx
    by_cases hk : p.1 == k
    · rw [if_pos hk] at he
      exact Or.inr he.symm
    · rw [if_neg hk] at he
      exact Or.inl (he ▸ hp)
  · rw [if_neg h] at hx
    rcases List.mem_append.mp hx with h1 | h1
    · exact Or.inl h1
    · exact Or.inr (by simpa using h1)

/-! ### Reachability lemmas -/

theorem Reach.trans {h : Heap} {a b c : Addr}
    (h1 : Reach h a b) (h2 : Reach h b c) : Reach h a c := by
  induction h2 with
  | refl => exact h1
  | step _ hmem ih => exact Reach.step ih hmem

theorem reach_oob {h : Heap} {a c : Addr} (ha : h.length <= a)
    (hr : Reach h a c) : c = a := by
  induction hr with
  | refl => rfl
  | step _ hmem ih =>
    subst ih
    rw [hget_oob _ _ ha] at hmem
    cases hmem

theorem closed_edge {h : Heap} (hc : heapClosedB h = true) {b c : Addr} {k : String}
    (hmem : (k, HV.ref c) ∈ hget h b) : c < h.length := by
  by_cases hb : b < h.length
  · have hcell : hget h b ∈ h := by
      rw [hget, List.getD_eq_getElem h [] hb]
      exact List.getElem_mem hb
    have h1 := (List.all_eq_true.mp hc) _ hcell
    have h2 := (List.all_eq_true.mp h1) _ hmem
    simpa [hvClosedB] using h2
  · rw [hget_oob h b (Nat.le_of_not_lt hb)] at hmem
    cases hmem

theorem reach_lt {h : Heap} (hc : heapClosedB h = true) {a c : Addr}
    (ha : a < h.length) (hr : Reach h a c) : c < h.length := by
  induction hr with
  | refl => exact ha
  | step _ hmem _ => exact closed_edge hc hmem

/-- Reachability after a single in-place write `a[k] = w`: every path
either already existed, or crosses the written entry and continues from
`w`. -/
theorem reach_write {h : Heap} {a : Addr} {k : String} {w : HV} {root c : Addr}
    (hr : Reach (hset h a (cset (hget h a) k w)) root c) :
    Reach h root c ∨ ∃ wb, w = HV.ref wb ∧ Reach h wb c := by
  induction hr with
  | refl => exact Or.inl (Reach.refl _)
  | step hrb hmem ih =>
    rename_i b2 c2 k2
    by_cases hba : b2 = a
    · subst hba
      by_cases hlen : b2 < h.length
      · rw [hget_hset_self h b2 _ hlen] at hmem
        rcases mem_cset hmem with hold | hnew
        · rcases ih with h1 | ⟨wb, hwb, h1⟩
          · exact Or.inl (Reach.step h1 hold)
          · exact Or.inr ⟨wb, hwb, Reach.step h1 hold⟩
        · have hw : w = HV.ref c2 := (congrArg Prod.snd hnew).symm
          exact Or.inr ⟨c2, hw, Reach.refl c2⟩
      · rw [show hset h b2 (cset (hget h b2) k w) = h from by
            simp [hset, List.set_eq_of_length_le (Nat.le_of_not_lt hlen)]] at hmem
        rcases ih with h1 | ⟨wb, hwb, h1⟩
        · exact Or.inl (Reach.step h1 hmem)
        · exact Or.inr ⟨wb, hwb, Reach.step h1 hmem⟩
    · rw [hget_hset_other h a b2 _ (fun he => hba he.symm)] at hmem
      rcases ih with h1 | ⟨wb, hwb, h1⟩
      · exact Or.inl (Reach.step h1 hmem)
      · exact Or.inr ⟨wb, hwb, Reach.step h1 hmem⟩

/-- Reachability of an old cell is unaffected by allocating a fresh empty
cell at the end of a closed heap. -/
theorem reach_append_old {h : Heap} (hc : heapClosedB h = true) {root c : Addr}
    (hr : Reach (h ++ [[]]) root c) (hlt : c < h.length) : Reach h root c := by
  induction hr with
  | refl => exact Reach.refl _
  | step hrb hmem ih =>
    rename_i b2 c2 k2
    by_cases hb : b2 < h.length
    · rw [hget_append_lt h [[]] b2 hb] at hmem
      exact Reach.step (ih hb) hmem
    · by_cases hbe : b2 = h.length
      · subst hbe
        rw [hget_append_self] at hmem
        cases hmem
      · rw [hget_oob (h ++ [[]]) b2 (by
          have h1 : h.length ≤ b2 := Nat.le_of_not_lt hb
          have h2 : h.length < b2 := lt_of_le_of_ne h1 (fun he => hbe he.symm)
          simpa using h2)] at hmem
        cases hmem

/-- From a cell with no reference entries, nothing but the cell itself is
reachable. -/
theorem reach_of_refless {h : Heap} {a c : Addr} (hr : Reach h a c)
    (hn : ∀ p ∈ hget h a, ∀ b, p.2 ≠ HV.ref b) : c = a := by
  induction hr with
  | refl => rfl
  | step _ hmem ih =>
    subst ih
    exact absurd rfl (hn _ hmem _)

/-! ### Closedness lemmas -/

theorem hvClosedB_mono {n m : Nat} (hnm : n ≤ m) {v : HV}
    (hv : hvClosedB n v = true) : hvClosedB m v = true := by
  cases v with
  | str _ => rfl
  | ref a =>
    have h1 : a < n := of_decide_eq_true hv
    exact decide_eq_true (Nat.lt_of_lt_of_le h1 hnm)

theorem cellClosedB_mono {n m : Nat} (hnm : n ≤ m) {c : Cell}
    (hc : cellClosedB n c = true) : cellClosedB m c = true := by
  simp [cellClosedB, List.all_eq_true] at hc ⊢
  intro a b hab
  exact hvClosedB_mono hnm (hc a b hab)

theorem cellClosedB_of_heap {h : Heap} (hc : heapClosedB h = true) (a : Addr) :
    cellClosedB h.length (hget h a) = true := by
  by_cases ha : a < h.length
  · have hcell : hget h a ∈ h := by
      rw [hget, List.getD_eq_getElem h [] ha]
      exact List.getElem_mem ha
    exact (List.all_eq_true.mp hc) _ hcell
  · rw [hget_oob h a (Nat.le_of_not_lt ha)]
    rfl

theorem heapClosedB_append_empty {h : Heap} (hc : heapClosedB h = true) :
    heapClosedB (h ++ [[]]) = true := by
  simp [heapClosedB, List.all_eq_true] at hc ⊢
  constructor
  · intro c hcmem
    exact cellClosedB_mono (by simp) (hc c hcmem)
  · rfl

theorem cellClosedB_cset {n : Nat} {c : Cell} {k : String} {w : HV}
    (hc : cellClosedB n c = true) (hw : hvClosedB n w = true) :
    cellClosedB n (cset c k w) = true := by
  simp [cellClosedB, List.all_eq_true] at hc ⊢
  intro a b hab
  rcases mem_cset hab with hold | hnew
  · exact hc a b hold
  · obtain ⟨h1, h2⟩ := Prod.mk.injEq .. |>.mp hnew
    subst h2
    exact hw

theorem heapClosedB_hset {h : Heap} {a : Addr} {c : Cell}
    (hc : heapClosedB h = true) (hcell : cellClosedB h.length c = true) :
    heapClosedB (hset h a c) = true := by
  simp [heapClosedB, List.all_eq_true, hset] at hc ⊢
  intro c' hc'
  rcases List.mem_or_eq_of_mem_set hc' with hold | hnew
  · exact hc c' hold
  · rw [hnew]
    exact hcell

theorem closed_cget {h : Heap} (hc : heapClosedB h = true) {a : Addr} {k : String}
    {v : HV} (hv : cget (hget h a) k = some v) : hvClosedB h.length v = true := by
  unfold cget at hv
  cases hf : (hget h a).find? (fun p => p.1 == k) with
  | none => rw [hf] at hv; cases hv
  | some p =>
    rw [hf] at hv
    simp at hv
    have hp : p ∈ hget h a := List.mem_of_find?_eq_some hf
    have hcl := List.all_eq_true.mp (cellClosedB_of_heap hc a) _ hp
    rw [← hv]
    simpa [cellClosedB] using hcl

/-! ### The frame/ownership specification of the heap-level `_dict_update` -/

/-- The loop of `_dict_update` over a snapshot, on a closed heap and a
valid destination: the heap only grows, stays closed, every old cell not
reachable from the destination is left untouched, and every old cell
reachable from anything afterwards was already reachable from the same
root — or from the destination — before. -/
theorem hUpdGo_spec :
    ∀ (fuel : Nat) (l : List (String × HV)) (h : Heap) (d1 : HV) (h' : Heap),
      heapClosedB h = true → hvClosedB h.length d1 = true →
      hUpdGo fuel h d1 l = .ok h' →
      (h.length ≤ h'.length ∧ heapClosedB h' = true) ∧
      (∀ c, c < h.length → ¬ hvReach h d1 c → hget h' c = hget h c) ∧
      (∀ root c, c < h.length → Reach h' root c → Reach h root c ∨ hvReach h d1 c) := by
  intro fuel
  induction fuel with
  | zero =>
    intro l h d1 h' hc hd1 hok
    cases l with
    | nil =>
      cases hok
      exact ⟨⟨Nat.le_refl _, hc⟩, fun c _ _ => rfl, fun root c _ hr => Or.inl hr⟩
    | cons p rest => simp [hUpdGo] at hok
  | succ fuel ih =>
    intro l h d1 h' hc hd1 hok
    cases l with
    | nil =>
      cases hok
      exact ⟨⟨Nat.le_refl _, hc⟩, fun c _ _ => rfl, fun root c _ hr => Or.inl hr⟩
    | cons p rest =>
      obtain ⟨k, v⟩ := p
      cases v with
      | str s =>
        cases d1 with
        | str s1 => simp [hUpdGo] at hok
        | ref a1 =>
          have ha1 : a1 < h.length := of_decide_eq_true hd1
          rw [show hUpdGo (fuel + 1) h (.ref a1) ((k, .str s) :: rest)
              = hUpdGo fuel (hset h a1 (cset (hget h a1) k (.str s))) (.ref a1) rest
            from rfl] at hok
          have hc3 : heapClosedB (hset h a1 (cset (hget h a1) k (.str s))) = true :=
            heapClosedB_hset hc (cellClosedB_cset (cellClosedB_of_heap hc a1) rfl)
          obtain ⟨⟨hl2, hc2⟩, hframe2, hreach2⟩ :=
            ih rest _ (.ref a1) h' hc3 (by rw [length_hset]; exact hd1) hok
          refine ⟨⟨?_, hc2⟩, ?_, ?_⟩
          · rw [length_hset] at hl2
            exact hl2
          · intro c hcl hnr
            have hne : a1 ≠ c := fun he => hnr (he ▸ Reach.refl a1)
            have hn3 : ¬ hvReach (hset h a1 (cset (hget h a1) k (.str s))) (.ref a1) c := by
              intro hr3
              rcases reach_write hr3 with h1 | ⟨wb, hwb, _⟩
              · exact hnr h1
              · exact HV.noConfusion hwb
            have e2 := hframe2 c (by rw [length_hset]; exact hcl) hn3
            rw [e2, hget_hset_other h a1 c _ hne]
          · intro root c hcl hr
            rcases hreach2 root c (by rw [length_hset]; exact hcl) hr with h1 | h1
            · rcases reach_write h1 with h2 | ⟨wb, hwb, _⟩
              · exact Or.inl h2
              · exact HV.noConfusion hwb
            · rcases reach_write h1 with h2 | ⟨wb, hwb, _⟩
              · exact Or.inr h2
              · exact HV.noConfusion hwb
      | ref a2 =>
        cases d1 with
        | str s1 => simp [hUpdGo] at hok
        | ref a1 =>
          have ha1 : a1 < h.length := of_decide_eq_true hd1
          rw [show hUpdGo (fuel + 1) h (.ref a1) ((k, .ref a2) :: rest)
              = (match hUpdGo fuel (h ++ [[]])
                    ((cget (hget (h ++ [[]]) a1) k).getD (.ref h.length))
                    (hget (h ++ [[]]) a2) with
                 | .error e => .error e
                 | .ok h2 => hUpdGo fuel
                     (hset h2 a1 (cset (hget h2 a1) k
                       ((cget (hget (h ++ [[]]) a1) k).getD (.ref h.length))))
                     (.ref a1) rest)
            from rfl] at hok
          rw [hget_append_lt h [[]] a1 ha1] at hok
          have hlen1 : (h ++ [[]]).length = h.length + 1 := by simp
          have hh1le : h.length ≤ (h ++ [[]]).length := by rw [hlen1]; exact Nat.le_succ _
          cases hI : hUpdGo fuel (h ++ [[]])
              ((cget (hget h a1) k).getD (.ref h.length)) (hget (h ++ [[]]) a2) with
          | error e =>
            rw [hI] at hok
            exact Except.noConfusion hok
          | ok h2 =>
            rw [hI] at hok
            have hc1 : heapClosedB (h ++ [[]]) = true := heapClosedB_append_empty hc
            have hsubc : hvClosedB (h ++ [[]]).length
                ((cget (hget h a1) k).getD (.ref h.length)) = true := by
              cases hcg : cget (hget h a1) k with
              | none =>
                simp only [Option.getD]
                rw [hlen1]
                exact decide_eq_true (Nat.lt_succ_self _)
              | some v1 =>
                simp only [Option.getD]
                exact hvClosedB_mono hh1le (closed_cget hc hcg)
            obtain ⟨⟨hl2, hc2⟩, hframe2, hreach2⟩ :=
              ih (hget (h ++ [[]]) a2) (h ++ [[]])
                ((cget (hget h a1) k).getD (.ref h.length)) h2 hc1 hsubc hI
            have hh2le : h.length ≤ h2.length := le_trans hh1le hl2
            have ha1lt2 : a1 < h2.length := Nat.lt_of_lt_of_le ha1 hh2le
            have hcell3 : cellClosedB h2.length
                (cset (hget h2 a1) k ((cget (hget h a1) k).getD (.ref h.length))) = true :=
              cellClosedB_cset (cellClosedB_of_heap hc2 a1) (hvClosedB_mono hl2 hsubc)
            have hc3 : heapClosedB (hset h2 a1 (cset (hget h2 a1) k
                ((cget (hget h a1) k).getD (.ref h.length)))) = true :=
              heapClosedB_hset hc2 hcell3
            obtain ⟨⟨hl3, hc'⟩, hframe3, hreach3⟩ :=
              ih rest _ (.ref a1) h' hc3
                (by rw [length_hset]; exact decide_eq_true ha1lt2) hok
            have hsub_to_d1 : ∀ c, c < h.length →
                hvReach (h ++ [[]]) ((cget (hget h a1) k).getD (.ref h.length)) c →
                Reach h a1 c := by
              intro c hcl hs
              cases hcg : cget (hget h a1) k with
              | none =>
                rw [hcg] at hs
                simp only [Option.getD] at hs
                have he := reach_of_refless hs (by
                  rw [hget_append_self]
                  intro p hp
                  cases hp)
                rw [he] at hcl
                exact absurd hcl (Nat.lt_irrefl _)
              | some v1 =>
                rw [hcg] at hs
                simp only [Option.getD] at hs
                cases v1 with
                | str s1 => exact hs.elim
                | ref a' =>
                  have hsold : Reach h a' c := reach_append_old hc hs hcl
                  unfold cget at hcg
                  cases hf : (hget h a1).find? (fun p => p.1 == k) with
                  | none => rw [hf] at hcg; cases hcg
                  | some p =>
                    rw [hf] at hcg
                    simp at hcg
                    have hp : p ∈ hget h a1 := List.mem_of_find?_eq_some hf
                    have hedge : (p.1, HV.ref a') ∈ hget h a1 := by
                      rw [← hcg]
                      simpa using hp
                    exact Reach.trans (Reach.step (Reach.refl a1) hedge) hsold
            have hreach3_down : ∀ X c, c < h.length →
                Reach (hset h2 a1 (cset (hget h2 a1) k
                  ((cget (hget h a1) k).getD (.ref h.length)))) X c →
                Reach h X c ∨ Reach h a1 c := by
              intro X c hcl hr3
              have hcl1 : c < (h ++ [[]]).length := Nat.lt_of_lt_of_le hcl hh1le
              rcases reach_write hr3 with h2r | ⟨wb, hwb, h2r⟩
              · rcases hreach2 X c hcl1 h2r with hr1 | hs
                · exact Or.inl (reach_append_old hc hr1 hcl)
                · exact Or.inr (hsub_to_d1 c hcl hs)
              · rcases hreach2 wb c hcl1 h2r with hr1 | hs
                · exact Or.inr (hsub_to_d1 c hcl (by rw [hwb]; exact hr1))
                · exact Or.inr (hsub_to_d1 c hcl hs)
            refine ⟨⟨?_, hc'⟩, ?_, ?_⟩
            · rw [length_hset] at hl3
              exact le_trans hh2le hl3
            · intro c hcl hnr
              have hcl1 : c < (h ++ [[]]).length := Nat.lt_of_lt_of_le hcl hh1le
              have hne : a1 ≠ c := fun he => hnr (he ▸ Reach.refl a1)
              have e1 : hget (h ++ [[]]) c = hget h c := hget_append_lt h [[]] c hcl
              have e2 : hget h2 c = hget (h ++ [[]]) c :=
                hframe2 c hcl1 (fun hs => hnr (hsub_to_d1 c hcl hs))
              have e3 : hget (hset h2 a1 (cset (hget h2 a1) k
                  ((cget (hget h a1) k).getD (.ref h.length)))) c = hget h2 c :=
                hget_hset_other h2 a1 c _ hne
              have e4 := hframe3 c
                (by rw [length_hset]; exact Nat.lt_of_lt_of_le hcl hh2le)
                (fun hr3 => (hreach3_down a1 c hcl hr3).elim hnr hnr)
              rw [e4, e3, e2, e1]
            · intro root c hcl hr
              rcases hreach3 root c
                  (by rw [length_hset]; exact Nat.lt_of_lt_of_le hcl hh2le) hr with h3r | h3r
              · rcases hreach3_down root c hcl h3r with hd | hd
                · exact Or.inl hd
                · exact Or.inr hd
              · rcases hreach3_down a1 c hcl h3r with hd | hd
                · exact Or.inr hd
                · exact Or.inr hd

/-- C10, counterexample: when `dst` and `src` are the *same* dict object
`{a: {}}` (heap address 0, whose entry references the empty dict at address
1), `_dict_update(dst, src)` succeeds and returns that object — so a map
substructure of `src` (the cell at address 1) *is* reachable from the
result, not only string leaves.  The claim's "no map substructure of src
becomes reachable from the result" therefore fails for aliased arguments. -/
theorem claim_C10_counterexample :
    hUpd 2 [[("a", HV.ref 1)], []] (.ref 0) 0
      = .ok ([[("a", HV.ref 1)], [], []], .ref 0) ∧
    Reach [[("a", HV.ref 1)], []] 0 1 ∧
    (1 : Addr) ≠ 0 ∧
    Reach [[("a", HV.ref 1)], [], []] 0 1 := by
  refine ⟨rfl, ?_, by decide, ?_⟩
  · exact Reach.step (Reach.refl 0) (by
      rw [show hget [[("a", HV.ref 1)], []] 0 = [("a", HV.ref 1)] from rfl]
      exact List.mem_singleton.mpr rfl)
  · exact Reach.step (Reach.refl 0) (by
      rw [show hget [[("a", HV.ref 1)], [], []] 0 = [("a", HV.ref 1)] from rfl]
      exact List.mem_singleton.mpr rfl)

/-- C10, amended: when `dst` and `src` share no map substructure (no heap
cell is reachable from both), `_dict_update` never touches any cell
reachable from `src` — `src` is unchanged at every depth — it returns the
very `dst` object passed in, and no map substructure of `src` is reachable
from the result (only immutable string leaves are shared, by copying).
Stated over the heap embedding `hUpd`, for any run that returns. -/
theorem claim_C10_amended (fuel : Nat) (h h' : Heap) (dst : HV) (a2 : Addr) (r : HV)
    (hclosed : heapClosedB h = true) (hdst : hvClosedB h.length dst = true)
    (ha2 : a2 < h.length)
    (hdisj : ∀ c, Reach h a2 c → ¬ hvReach h dst c)
    (hok : hUpd fuel h dst a2 = .ok (h', r)) :
    r = dst ∧
    (∀ c, Reach h a2 c → hget h' c = hget h c) ∧
    (∀ c, Reach h a2 c → ¬ hvReach h' dst c) := by
  unfold hUpd at hok
  cases hI : hUpdGo fuel h dst (hget h a2) with
  | error e =>
    rw [hI] at hok
    exact Except.noConfusion hok
  | ok hh =>
    rw [hI] at hok
    have hpair : (hh, dst) = (h', r) := by
      have := Except.ok.inj hok
      exact this
    obtain ⟨he1, he2⟩ := Prod.mk.injEq .. |>.mp hpair
    subst he1
    subst he2
    obtain ⟨⟨hlen, hcl⟩, hframe, hreach⟩ :=
      hUpdGo_spec fuel (hget h a2) h dst hh hclosed hdst hI
    refine ⟨rfl, ?_, ?_⟩
    · intro c hrc
      exact hframe c (reach_lt hclosed ha2 hrc) (hdisj c hrc)
    · intro c hrc hrd
      cases hd : dst with
      | str s =>
        rw [hd] at hrd
        exact hrd
      | ref a1 =>
        rw [hd] at hrd
        rcases hreach a1 c (reach_lt hclosed ha2 hrc) hrd with hdn | hdn
        · exact hdisj c hrc (by rw [hd]; exact hdn)
        · exact hdisj c hrc hdn

/-- Witness for C10 (amended) with `dst = {a: "x"}` at address 0 and
`src = {b: "y"}` at address 1, which share nothing: the merge writes only
`dst`'s cell, `src`'s cell is untouched and remains unreachable from the
result. -/
theorem claim_C10_amended_witness :
    hget [[("a", HV.str "x"), ("b", HV.str "y")], [("b", HV.str "y")]] 1
      = hget [[("a", HV.str "x")], [("b", HV.str "y")]] 1 ∧
    ¬ hvReach [[("a", HV.str "x"), ("b", HV.str "y")], [("b", HV.str "y")]] (.ref 0) 1 := by
  have hdisj : ∀ c, Reach [[("a", HV.str "x")], [("b", HV.str "y")]] 1 c →
      ¬ hvReach [[("a", HV.str "x")], [("b", HV.str "y")]] (.ref 0) c := by
    intro c hc1
    have he := reach_of_refless hc1 (by
      rw [show hget [[("a", HV.str "x")], [("b", HV.str "y")]] 1
          = [("b", HV.str "y")] from rfl]
      intro p hp b
      rw [List.mem_singleton.mp hp]
      exact fun habs => HV.noConfusion habs)
    subst he
    intro habs
    have h0 := reach_of_refless habs (by
      rw [show hget [[("a", HV.str "x")], [("b", HV.str "y")]] 0
          = [("a", HV.str "x")] from rfl]
      intro p hp b
      rw [List.mem_singleton.mp hp]
      exact fun habs2 => HV.noConfusion habs2)
    exact absurd h0 (by decide)
  have h := claim_C10_amended 2 [[("a", HV.str "x")], [("b", HV.str "y")]]
    [[("a", HV.str "x"), ("b", HV.str "y")], [("b", HV.str "y")]]
    (.ref 0) 1 (.ref 0) rfl rfl (by decide) hdisj rfl
  exact ⟨h.2.1 1 (Reach.refl 1), h.2.2 1 (Reach.refl 1)⟩

end EveApi
